import Mathlib

/-!
A shallow embedding of the block-synchronization engine of
`src/sync/src/extension.rs` (CodeChain's `BlockSyncExtension`), together with
proofs of the specified properties.

Hashes (`H256`) and scores (`U256`) are modelled as `Nat`; the peer table
(`HashMap<NodeId, Peer>` in the source) is an association list whose keys are
unique, mirroring the hash-map's key uniqueness where a proof needs it.
The chain store (`BlockChainClient`) and the network substrate are external
collaborators, modelled as a record of pure lookup functions.
-/

namespace BlockSync

abbrev H256 := Nat
abbrev U256 := Nat
abbrev NodeId := Nat

/-- A block body, as the list of its transactions (opaque payloads). -/
abbrev Body := List Nat

/-- A block header: its own hash, its height (`number()`), and the hash of its
parent. Mirrors the fields of the source's decoded `Header` that the sync
engine reads. -/
structure Header where
  hash : H256
  number : Nat
  parent_hash : H256
deriving DecidableEq, Repr

/-- Mirrors `ccore::BlockId` as used by `extension.rs`: lookup by hash or by
height. -/
inductive BlockId where
| Hash : H256 → BlockId
| Number : Nat → BlockId
deriving DecidableEq, Repr

/-- The wire vocabulary, mirroring `message::Message`. -/
inductive Message where
| Status : U256 → H256 → H256 → Message
| RequestHeaders : H256 → Nat → Message
| RequestBodies : List H256 → Message
| Headers : List Header → Message
| Bodies : List Body → Message
deriving DecidableEq, Repr

/-- Mirrors `Message::is_status`. -/
def Message.is_status : Message → Bool
| .Status _ _ _ => true
| _ => false

/-- Mirrors `RequestInfo` of `extension.rs`: the single outstanding request
recorded for a peer. -/
inductive RequestInfo where
| Header : H256 → RequestInfo
| Bodies : List H256 → RequestInfo
deriving DecidableEq, Repr

/-- Mirrors `struct Peer` of `extension.rs`. -/
structure Peer where
  total_score : U256
  best_hash : H256
  last_request : Option RequestInfo
deriving DecidableEq, Repr

/-- The peer session table: `HashMap<NodeId, Peer>` as an association list. -/
abbrev PeerTable := List (NodeId × Peer)

/-- First-match lookup in the peer table (`peers.get(id)`). -/
def lookupPeer : PeerTable → NodeId → Option Peer
| [], _ => none
| (pid, p) :: rest, id => if pid = id then some p else lookupPeer rest id

/-- The chain summary returned by `client.chain_info()`. -/
structure ChainInfo where
  total_score : U256
  best_block_hash : H256
  genesis_hash : H256
deriving DecidableEq, Repr

/-- The chain store (`BlockChainClient`), an external collaborator: pure
lookups plus the block-acceptance decision. `accept_block` is modelled from
the spec's external interface `accept_block(header, body) -> Result`. -/
structure Client where
  chain_info : ChainInfo
  block_header : BlockId → Option Header
  block_body : H256 → Option Body
  block_total_score : H256 → Option U256
  accept_block : Header → Body → Bool

/-- Modelled from the spec: the `DownloadManager` state (the source's
`manager.rs` is not part of this tree). `best_hash` is the sync frontier,
`pending` the queue of headers known but not yet body-completed, and
`requests` the queue of outstanding body-request batches, oldest first. -/
structure DownloadManager where
  best_hash : H256
  pending : List Header
  requests : List (List H256)
deriving DecidableEq, Repr

/-- Modelled from the spec: body-request batch size of the download manager. -/
def bodyBatchSize : Nat := 32

/-- Modelled from the spec: header batch size requested per `RequestHeaders`. -/
def headerBatchSize : Nat := 64

/-- Modelled from the spec: maximum in-flight depth of the header queue. -/
def maxHeaderDepth : Nat := 256

/-- Modelled from the spec: `DownloadManager::create_request` — if pending
headers lack bodies, request a batch of those bodies; otherwise request more
headers from the frontier while below the in-flight depth; otherwise nothing. -/
def DownloadManager.create_request (dm : DownloadManager) : Option Message :=
  let requested := dm.requests.flatten
  let unfetched := (dm.pending.filter (fun h => ¬ requested.contains h.hash)).map (fun h => h.hash)
  if unfetched ≠ [] then some (Message.RequestBodies (unfetched.take bodyBatchSize))
  else if dm.pending.length < maxHeaderDepth then
    some (Message.RequestHeaders dm.best_hash headerBatchSize)
  else none

/-- Modelled from the spec: parent-hash contiguity of a header batch starting
from a given anchor hash. -/
def chains_from : H256 → List Header → Bool
| _, [] => true
| prev, h :: rest => h.parent_hash == prev && chains_from h.hash rest

/-- Modelled from the spec: `DownloadManager::import_headers` — append the
batch to the pending queue only when it chains from the current tail of the
queue (or from the frontier when the queue is empty); the frontier itself
does not advance here. -/
def DownloadManager.import_headers (dm : DownloadManager) (headers : List Header) : DownloadManager :=
  let anchor := match dm.pending.getLast? with
    | some h => h.hash
    | none => dm.best_hash
  if chains_from anchor headers then { dm with pending := dm.pending ++ headers } else dm

/-- Modelled from the spec: one step of `import_bodies` — a positional
(hash, body) pair; when the hash matches a pending header, the assembled
block is forwarded to the chain store, and on acceptance the frontier
advances to that block's hash and the header is evicted from the queue. -/
def DownloadManager.accept_pair (client : Client) (dm : DownloadManager) (h : H256) (b : Body) : DownloadManager :=
  match dm.pending.find? (fun hd => hd.hash == h) with
  | some hd =>
    if client.accept_block hd b then
      { dm with best_hash := hd.hash, pending := dm.pending.filter (fun x => x.hash != h) }
    else dm
  | none => dm

/-- Modelled from the spec: `DownloadManager::import_bodies` — bodies are
matched positionally against the oldest outstanding body-request batch; with
no outstanding request the bodies are dropped. -/
def DownloadManager.import_bodies (client : Client) (dm : DownloadManager) (bodies : List Body) : DownloadManager :=
  match dm.requests with
  | [] => dm
  | hashes :: rest =>
    (hashes.zip bodies).foldl (fun acc pr => DownloadManager.accept_pair client acc pr.1 pr.2)
      { dm with requests := rest }

/-- The engine state the claims observe: the peer session table and the
download manager (`peers` and `manager` fields of `BlockSyncExtension`). -/
structure SyncState where
  peers : PeerTable
  manager : DownloadManager
deriving DecidableEq, Repr

/-- Mirrors `BlockSyncExtension::is_valid_message`. -/
def is_valid_message (client : Client) (peers : PeerTable) (id : NodeId) (message : Message) : Bool :=
  match message with
  | .Status _ _ genesis_hash =>
    if genesis_hash != client.chain_info.genesis_hash then false else true
  | _ =>
    match lookupPeer peers id with
    | some peer =>
      match message, peer.last_request with
      | .RequestBodies hashes, _ => hashes.length != 0
      | .Headers headers, some (RequestInfo.Header start_hash) =>
        match headers.head? with
        | none => true
        | some h => h.hash == start_hash
      | .Bodies _, some (RequestInfo.Bodies _) => true
      | _, _ => false
    | none => false

/-- The `Status` arm of `apply_message`: update both fields of an existing
session, or insert a fresh session with no outstanding request. -/
def insert_or_update (peers : PeerTable) (id : NodeId) (ts : U256) (bh : H256) : PeerTable :=
  if (lookupPeer peers id).isSome then
    peers.map (fun e => if e.1 = id then (e.1, { e.2 with total_score := ts, best_hash := bh }) else e)
  else
    peers ++ [(id, ⟨ts, bh, none⟩)]

/-- Mirrors `BlockSyncExtension::apply_message`. -/
def apply_message (client : Client) (st : SyncState) (id : NodeId) (message : Message) : SyncState :=
  match message with
  | .Status total_score best_hash _ =>
    { st with peers := insert_or_update st.peers id total_score best_hash }
  | .Headers headers => { st with manager := st.manager.import_headers headers }
  | .Bodies bodies => { st with manager := DownloadManager.import_bodies client st.manager bodies }
  | _ => st

/-- The per-peer update performed by `record_last_request`'s inner `match`. -/
def update_last (p : Peer) (message : Option Message) : Peer :=
  match message with
  | some (.RequestHeaders start_hash _) => { p with last_request := some (RequestInfo.Header start_hash) }
  | some (.RequestBodies hashes) => { p with last_request := some (RequestInfo.Bodies hashes) }
  | none => { p with last_request := none }
  | some _ => p

/-- Mirrors `BlockSyncExtension::record_last_request`: mutate the entry for
`id` (if present) according to the computed next message. -/
def record_last_request (peers : PeerTable) (id : NodeId) (message : Option Message) : PeerTable :=
  peers.map (fun e => if e.1 = id then (e.1, update_last e.2 message) else e)

/-- The loop of `create_headers_message`: walk forward from a block id,
collecting up to `max_count` headers, stopping at the first lookup miss. -/
def headers_from (client : Client) : BlockId → Nat → List Header
| _, 0 => []
| block_id, Nat.succ n =>
  match client.block_header block_id with
  | some h => h :: headers_from client (BlockId.Number (h.number + 1)) n
  | none => []

/-- Mirrors `BlockSyncExtension::create_headers_message`. -/
def create_headers_message (client : Client) (start_hash : H256) (max_count : Nat) : Message :=
  Message.Headers (headers_from client (BlockId.Hash start_hash) max_count)

/-- Mirrors `BlockSyncExtension::create_bodies_message`: look up each hash,
silently omitting misses. -/
def create_bodies_message (client : Client) (hashes : List H256) : Message :=
  Message.Bodies (hashes.filterMap client.block_body)

/-- Mirrors `BlockSyncExtension::on_message` after a successful decode.
Returns `none` on the source's `expect` panics (which validity makes
unreachable), otherwise the new state and the message sent to the peer
(`none` when nothing is sent). -/
def on_message (client : Client) (st : SyncState) (id : NodeId) (message : Message) :
    Option (SyncState × Option Message) :=
  if ¬ is_valid_message client st.peers id message then some (st, none)
  else
    let st1 := apply_message client st id message
    if message.is_status then some (st1, none)
    else
      let next? : Option (Option Message) :=
        match message with
        | .RequestHeaders start_hash max_count =>
          some (some (create_headers_message client start_hash max_count))
        | .RequestBodies hashes => some (some (create_bodies_message client hashes))
        | _ =>
          match client.block_total_score st1.manager.best_hash with
          | none => none
          | some total_score =>
            match lookupPeer st1.peers id with
            | none => none
            | some peer =>
              some (if total_score < peer.total_score then st1.manager.create_request else none)
      match next? with
      | none => none
      | some next =>
        some ({ st1 with peers := record_last_request st1.peers id next }, next)

/-- The idle-peer scan of `on_timeout`: peers with `last_request == None`. -/
def idle_peer_ids (peers : PeerTable) : List NodeId :=
  (peers.filter (fun e => e.2.last_request.isNone)).map (fun e => e.1)

/-- One iteration of `on_timeout`'s loop: ask the manager for the next
request, record it for `id`, and send it if there is one. -/
def timeout_step (acc : SyncState × List (NodeId × Message)) (id : NodeId) :
    SyncState × List (NodeId × Message) :=
  let next := acc.1.manager.create_request
  let st' := { acc.1 with peers := record_last_request acc.1.peers id next }
  match next with
  | some m => (st', acc.2 ++ [(id, m)])
  | none => (st', acc.2)

/-- The loop of `on_timeout` over the shuffled idle-peer list. -/
def timeout_loop : SyncState × List (NodeId × Message) → List NodeId → SyncState × List (NodeId × Message)
| acc, [] => acc
| acc, id :: rest => timeout_loop (timeout_step acc id) rest

/-- Mirrors `BlockSyncExtension::on_timeout`; `order` is the shuffled list of
idle peer ids (the shuffle is an arbitrary permutation, supplied as an
argument). Returns the final state and the messages sent, in send order. -/
def on_timeout (st : SyncState) (order : List NodeId) : SyncState × List (NodeId × Message) :=
  timeout_loop (st, []) order

/-! ## Sample chain store and states, used by the witness theorems -/

/-- A small concrete chain store used to instantiate hypotheses. -/
def client0 : Client where
  chain_info := ⟨100, 5, 7⟩
  block_header := fun _ => none
  block_body := fun _ => none
  block_total_score := fun _ => none
  accept_block := fun _ _ => true

/-- An engine state with an empty peer table. -/
def st0 : SyncState := ⟨[], ⟨5, [], []⟩⟩

/-- A one-entry peer table: peer 0 has no outstanding request. -/
def peers1 : PeerTable := [(0, ⟨10, 3, none⟩)]

/-! ## Helper lemmas about the peer table operations -/

theorem lookupPeer_cons (pid : NodeId) (q : Peer) (rest : PeerTable) (id : NodeId) :
    lookupPeer ((pid, q) :: rest) id = if pid = id then some q else lookupPeer rest id := rfl

theorem record_cons (pid : NodeId) (q : Peer) (rest : PeerTable) (id : NodeId)
    (m : Option Message) :
    record_last_request ((pid, q) :: rest) id m =
      (pid, if pid = id then update_last q m else q) :: record_last_request rest id m := by
  simp only [record_last_request, List.map_cons]
  congr 1
  by_cases h : pid = id <;> simp [h]

theorem record_eq_of_fix (peers : PeerTable) (id : NodeId) (m : Option Message)
    (hfix : ∀ p, update_last p m = p) : record_last_request peers id m = peers := by
  induction peers with
  | nil => rfl
  | cons e rest ih =>
    obtain ⟨pid, q⟩ := e
    rw [record_cons, ih]
    by_cases h : pid = id <;> simp [h, hfix]

theorem lookup_record (peers : PeerTable) (id : NodeId) (m : Option Message) (p : Peer)
    (hl : lookupPeer peers id = some p) :
    lookupPeer (record_last_request peers id m) id = some (update_last p m) := by
  induction peers with
  | nil => simp [lookupPeer] at hl
  | cons e rest ih =>
    obtain ⟨pid, q⟩ := e
    rw [lookupPeer_cons] at hl
    rw [record_cons, lookupPeer_cons]
    by_cases h : pid = id
    · rw [if_pos h] at hl
      rw [if_pos h, if_pos h]
      injection hl with h2
      rw [h2]
    · rw [if_neg h] at hl
      rw [if_neg h]
      exact ih hl

theorem lookup_record_other (peers : PeerTable) (id id' : NodeId) (m : Option Message)
    (hne : id' ≠ id) :
    lookupPeer (record_last_request peers id m) id' = lookupPeer peers id' := by
  induction peers with
  | nil => rfl
  | cons e rest ih =>
    obtain ⟨pid, q⟩ := e
    rw [record_cons, lookupPeer_cons, lookupPeer_cons]
    by_cases h3 : pid = id'
    · have hpid : ¬ pid = id := by
        rw [h3]
        exact hne
      rw [if_pos h3, if_pos h3, if_neg hpid]
    · rw [if_neg h3, if_neg h3]
      exact ih

/-- `lookupPeer` after appending a fresh entry for a previously-absent key. -/
theorem lookup_append_none (peers : PeerTable) (id : NodeId) (q : Peer)
    (hl : lookupPeer peers id = none) :
    lookupPeer (peers ++ [(id, q)]) id = some q := by
  induction peers with
  | nil => simp [lookupPeer]
  | cons e rest ih =>
    obtain ⟨pid, p⟩ := e
    rw [lookupPeer_cons] at hl
    rw [List.cons_append, lookupPeer_cons]
    by_cases h : pid = id
    · rw [if_pos h] at hl
      exact absurd hl (by simp)
    · rw [if_neg h] at hl
      rw [if_neg h]
      exact ih hl

/-- The map performed by `insert_or_update` on an existing session, pushed
through a cons cell. -/
theorem update_map_cons (pid : NodeId) (q : Peer) (rest : PeerTable) (id : NodeId)
    (ts : U256) (bh : H256) :
    List.map (fun e => if e.1 = id then (e.1, { e.2 with total_score := ts, best_hash := bh }) else e)
      ((pid, q) :: rest) =
    (pid, if pid = id then { q with total_score := ts, best_hash := bh } else q) ::
      List.map (fun e => if e.1 = id then (e.1, { e.2 with total_score := ts, best_hash := bh }) else e)
        rest := by
  simp only [List.map_cons]
  congr 1
  by_cases h : pid = id <;> simp [h]

/-- Lookup after the map performed by `insert_or_update` on an existing
session: both fields are replaced together, the request is preserved. -/
theorem lookup_update_map (peers : PeerTable) (id : NodeId) (ts : U256) (bh : H256) (p : Peer)
    (hl : lookupPeer peers id = some p) :
    lookupPeer
      (List.map (fun e => if e.1 = id then (e.1, { e.2 with total_score := ts, best_hash := bh }) else e)
        peers) id = some ⟨ts, bh, p.last_request⟩ := by
  induction peers with
  | nil => simp [lookupPeer] at hl
  | cons e rest ih =>
    obtain ⟨pid, q⟩ := e
    rw [lookupPeer_cons] at hl
    rw [update_map_cons, lookupPeer_cons]
    by_cases h : pid = id
    · rw [if_pos h] at hl
      rw [if_pos h, if_pos h]
      injection hl with h2
      rw [h2]
    · rw [if_neg h] at hl
      rw [if_neg h]
      exact ih hl

/-- After `insert_or_update`, the peer's entry holds exactly the new weight
and hash (the outstanding request is either preserved or `none` on a fresh
insert). -/
theorem lookup_insert_or_update (peers : PeerTable) (id : NodeId) (ts : U256) (bh : H256) :
    ∃ lr, lookupPeer (insert_or_update peers id ts bh) id = some ⟨ts, bh, lr⟩ := by
  unfold insert_or_update
  cases hl : lookupPeer peers id with
  | none =>
    simp only [Option.isSome_none, Bool.false_eq_true, if_false]
    exact ⟨none, lookup_append_none peers id _ hl⟩
  | some p =>
    simp only [Option.isSome_some, if_true]
    exact ⟨p.last_request, lookup_update_map peers id ts bh p hl⟩

/-! ## C1: validity of `Headers` responses -/

/-- C1: a `Headers{headers}` message from peer `id` is accepted by
`is_valid_message` iff that peer has a session whose recorded outstanding
request is `AwaitingHeaders(start_hash)` (source: `RequestInfo::Header`) and
either `headers` is empty or the first header's hash equals `start_hash`;
every other combination is rejected. -/
theorem headers_valid_iff (client : Client) (peers : PeerTable) (id : NodeId)
    (headers : List Header) :
    is_valid_message client peers id (Message.Headers headers) = true ↔
    ∃ p sh, lookupPeer peers id = some p ∧ p.last_request = some (RequestInfo.Header sh) ∧
      (headers = [] ∨ ∃ h t, headers = h :: t ∧ h.hash = sh) := by
  cases hl : lookupPeer peers id with
  | none => simp [is_valid_message, hl]
  | some p =>
    cases hr : p.last_request with
    | none => simp [is_valid_message, hl, hr]
    | some ri =>
      cases ri with
      | Header sh =>
        cases headers with
        | nil => simp [is_valid_message, hl, hr]
        | cons h t =>
          simp [is_valid_message, hl, hr]
          exact eq_comm
      | Bodies hs => simp [is_valid_message, hl, hr]

/-! ## C3: `RequestHeaders` is always rejected -/

/-- C3: for every peer-table state and peer, a `RequestHeaders` message is
judged invalid by `is_valid_message` (it falls through to the catch-all
`_ => false` arm), so `on_message` drops it with no state change and no
response: the `RequestHeaders` response branch is unreachable. -/
theorem request_headers_never_served (client : Client) (st : SyncState) (id : NodeId)
    (start_hash : H256) (max_count : Nat) :
    is_valid_message client st.peers id (Message.RequestHeaders start_hash max_count) = false ∧
    on_message client st id (Message.RequestHeaders start_hash max_count) = some (st, none) := by
  have hinv : is_valid_message client st.peers id (Message.RequestHeaders start_hash max_count) = false := by
    cases hl : lookupPeer st.peers id with
    | none => simp [is_valid_message, hl]
    | some p =>
      cases hr : p.last_request with
      | none => simp [is_valid_message, hl, hr]
      | some ri => cases ri <;> simp [is_valid_message, hl, hr]
  exact ⟨hinv, by simp [on_message, hinv]⟩

/-! ## C5: validity of `Status` messages -/

/-- C5: a `Status` message is valid iff its `genesis_hash` equals the local
genesis hash — independent of the peer table — and on a mismatch `on_message`
leaves the whole state unchanged (no session created) and sends nothing. -/
theorem status_valid_iff_genesis (client : Client) (st : SyncState) (id : NodeId)
    (ts : U256) (bh gh : H256) :
    is_valid_message client st.peers id (Message.Status ts bh gh) =
      (gh == client.chain_info.genesis_hash) ∧
    (gh ≠ client.chain_info.genesis_hash →
      on_message client st id (Message.Status ts bh gh) = some (st, none)) := by
  constructor
  · by_cases h : gh = client.chain_info.genesis_hash <;> simp [is_valid_message, h]
  · intro hne
    have hinv : is_valid_message client st.peers id (Message.Status ts bh gh) = false := by
      simp [is_valid_message, hne]
    simp [on_message, hinv]

/-- Witness for C5 at a concrete mismatched genesis hash. -/
theorem status_valid_iff_genesis_witness :
    is_valid_message client0 st0.peers 0 (Message.Status 1 2 9) =
      (9 == client0.chain_info.genesis_hash) ∧
    on_message client0 st0 0 (Message.Status 1 2 9) = some (st0, none) :=
  ⟨(status_valid_iff_genesis client0 st0 0 1 2 9).1,
   (status_valid_iff_genesis client0 st0 0 1 2 9).2 (by decide)⟩

/-! ## C4: peers without a session -/

/-- C4: a peer absent from the session table (never had a valid `Status`
accepted) has every non-`Status` message judged invalid, and `on_message`
applies nothing: the whole state is returned unchanged and nothing is sent.
Since the table state is universally quantified, this holds after every
sequence of events. -/
theorem no_session_rejects (client : Client) (st : SyncState) (id : NodeId) (message : Message)
    (hnone : lookupPeer st.peers id = none) (hns : message.is_status = false) :
    is_valid_message client st.peers id message = false ∧
    on_message client st id message = some (st, none) := by
  have hinv : is_valid_message client st.peers id message = false := by
    cases message <;> simp_all [is_valid_message, Message.is_status]
  exact ⟨hinv, by simp [on_message, hinv]⟩

/-- Witness for C4: an unknown peer's `Headers` message is rejected and the
state is untouched. -/
theorem no_session_rejects_witness :
    is_valid_message client0 st0.peers 0 (Message.Headers []) = false ∧
    on_message client0 st0 0 (Message.Headers []) = some (st0, none) :=
  no_session_rejects client0 st0 0 (Message.Headers []) rfl rfl

/-! ## C6: the last `Status` wins, atomically -/

/-- C6: after any sequence of `Status` messages from peer `id` ending in
`Status{t, b, g}`, the peer's session holds exactly weight `t` and best hash
`b`. Because the trailing message is an arbitrary split point of the
sequence, this pins the session contents after every step: each step writes
the weight and hash of one single message together, never a mix of two. -/
theorem status_sequence_last_wins (client : Client) (st : SyncState) (id : NodeId)
    (l : List (U256 × H256 × H256)) (t : U256) (b g : H256) :
    ∃ lr, lookupPeer
      (((l ++ [(t, b, g)]).foldl
        (fun s x => apply_message client s id (Message.Status x.1 x.2.1 x.2.2)) st).peers) id =
      some ⟨t, b, lr⟩ := by
  induction l generalizing st with
  | nil =>
    simp only [List.nil_append, List.foldl_cons, List.foldl_nil]
    exact lookup_insert_or_update st.peers id t b
  | cons x xs ih =>
    simp only [List.cons_append, List.foldl_cons]
    exact ih _

/-! ## C7: follow-up decision for unsolicited `Headers`/`Bodies` -/

/-- For a valid non-`Status` message the peer has a session (so the source's
`expect("Peer should exist for valid message")` cannot panic). -/
theorem valid_nonstatus_peer_exists (client : Client) (peers : PeerTable) (id : NodeId)
    (message : Message) (hns : message.is_status = false)
    (hv : is_valid_message client peers id message = true) :
    ∃ p, lookupPeer peers id = some p := by
  cases hl : lookupPeer peers id with
  | some p => exact ⟨p, rfl⟩
  | none =>
    exfalso
    cases message <;> simp_all [is_valid_message, Message.is_status]

/-- C7: after a valid `Headers` or `Bodies` message is applied, the follow-up
sent to the peer is the Download Manager's `create_request` exactly when the
peer's recorded total weight is strictly greater than the chain weight at the
manager's frontier (`best_hash`), and nothing otherwise; the outcome is also
recorded via `record_last_request`. -/
theorem unsolicited_followup_iff_ahead (client : Client) (st : SyncState) (id : NodeId)
    (message : Message)
    (hshape : (∃ hs, message = Message.Headers hs) ∨ (∃ bs, message = Message.Bodies bs))
    (hv : is_valid_message client st.peers id message = true)
    (peer : Peer) (hl : lookupPeer st.peers id = some peer) (ts : U256)
    (hts : client.block_total_score (apply_message client st id message).manager.best_hash =
      some ts) :
    on_message client st id message =
      some ({ apply_message client st id message with
                peers := record_last_request (apply_message client st id message).peers id
                  (if ts < peer.total_score
                   then (apply_message client st id message).manager.create_request
                   else none) },
            if ts < peer.total_score
            then (apply_message client st id message).manager.create_request
            else none) := by
  have hpeers : (apply_message client st id message).peers = st.peers := by
    rcases hshape with ⟨hs, rfl⟩ | ⟨bs, rfl⟩ <;> rfl
  have hlook : lookupPeer (apply_message client st id message).peers id = some peer := by
    rw [hpeers]
    exact hl
  rcases hshape with ⟨hs, rfl⟩ | ⟨bs, rfl⟩ <;>
    simp [on_message, hv, Message.is_status, hts, hlook]

/-- A chain store whose total score at every hash is 50. -/
def clientC7 : Client where
  chain_info := ⟨100, 5, 7⟩
  block_header := fun _ => none
  block_body := fun _ => none
  block_total_score := fun _ => some 50
  accept_block := fun _ _ => true

/-- Peer 0 claims weight 60 and awaits bodies for hash 11. -/
def peerC7 : Peer := ⟨60, 3, some (RequestInfo.Bodies [11])⟩

/-- State with peer 0's session and an empty download manager at frontier 5. -/
def stC7 : SyncState := ⟨[(0, peerC7)], ⟨5, [], []⟩⟩

/-- Witness for C7: peer 0 (weight 60) is strictly ahead of the local chain
weight 50, so the applied `Bodies` message is followed by the manager's next
request. -/
theorem unsolicited_followup_iff_ahead_witness :
    on_message clientC7 stC7 0 (Message.Bodies [[1]]) =
      some ({ apply_message clientC7 stC7 0 (Message.Bodies [[1]]) with
                peers := record_last_request (apply_message clientC7 stC7 0 (Message.Bodies [[1]])).peers 0
                  (if 50 < peerC7.total_score
                   then (apply_message clientC7 stC7 0 (Message.Bodies [[1]])).manager.create_request
                   else none) },
            if 50 < peerC7.total_score
            then (apply_message clientC7 stC7 0 (Message.Bodies [[1]])).manager.create_request
            else none) :=
  unsolicited_followup_iff_ahead clientC7 stC7 0 (Message.Bodies [[1]])
    (Or.inr ⟨[[1]], rfl⟩) rfl peerC7 rfl 50 rfl

/-! ## C8: the timer only drives idle peers -/

/-- Every message emitted by `timeout_loop` either was already in the
accumulator or is addressed to an id of the scanned list. -/
theorem timeout_loop_sends (acc : SyncState × List (NodeId × Message)) (ids : List NodeId)
    (pr : NodeId × Message) (hmem : pr ∈ (timeout_loop acc ids).2) :
    pr ∈ acc.2 ∨ pr.1 ∈ ids := by
  induction ids generalizing acc with
  | nil => exact Or.inl hmem
  | cons i rest ih =>
    rcases ih (timeout_step acc i) hmem with h | h
    · unfold timeout_step at h
      cases hnext : acc.1.manager.create_request with
      | some m =>
        rw [hnext] at h
        simp only [List.mem_append, List.mem_singleton] at h
        rcases h with h | h
        · exact Or.inl h
        · right
          rw [h]
          exact List.mem_cons_self i rest
      | none =>
        rw [hnext] at h
        exact Or.inl h
    · exact Or.inr (List.mem_cons_of_mem i h)

/-- `timeout_loop` never touches the table entry of an id outside the scanned
list. -/
theorem timeout_loop_untouched (acc : SyncState × List (NodeId × Message)) (ids : List NodeId)
    (id : NodeId) (hout : id ∉ ids) :
    lookupPeer (timeout_loop acc ids).1.peers id = lookupPeer acc.1.peers id := by
  induction ids generalizing acc with
  | nil => rfl
  | cons i rest ih =>
    have hne : id ≠ i := fun hc => hout (hc ▸ List.mem_cons_self i rest)
    have hrest : id ∉ rest := fun hc => hout (List.mem_cons_of_mem i hc)
    rw [timeout_loop, ih (timeout_step acc i) hrest]
    unfold timeout_step
    cases hnext : acc.1.manager.create_request <;>
      exact lookup_record_other acc.1.peers i id _ hne

/-- Membership in the idle scan, as entry membership. -/
theorem mem_idle (peers : PeerTable) (id : NodeId) :
    id ∈ idle_peer_ids peers ↔ ∃ p, (id, p) ∈ peers ∧ p.last_request.isNone = true := by
  constructor
  · intro hmem
    rw [idle_peer_ids, List.mem_map] at hmem
    rcases hmem with ⟨e, he, hfst⟩
    rw [List.mem_filter] at he
    refine ⟨e.2, ?_, he.2⟩
    rw [← hfst, Prod.mk.eta]
    exact he.1
  · intro ⟨p, hp, hno⟩
    rw [idle_peer_ids, List.mem_map]
    exact ⟨(id, p), List.mem_filter.2 ⟨hp, hno⟩, rfl⟩

/-- With unique keys, entry membership determines the lookup result. -/
theorem lookup_eq_of_mem_nodup (peers : PeerTable) (id : NodeId) (p : Peer)
    (hnd : (peers.map Prod.fst).Nodup) (hmem : (id, p) ∈ peers) :
    lookupPeer peers id = some p := by
  induction peers with
  | nil => cases hmem
  | cons e rest ih =>
    obtain ⟨pid, q⟩ := e
    simp only [List.map_cons, List.nodup_cons] at hnd
    rw [lookupPeer_cons]
    rcases List.mem_cons.1 hmem with heq | hmem2
    · rw [Prod.mk.injEq] at heq
      obtain ⟨h1, h2⟩ := heq
      rw [if_pos h1.symm, h2]
    · have hne : pid ≠ id := by
        intro hc
        subst hc
        exact hnd.1 (List.mem_map_of_mem Prod.fst hmem2)
      rw [if_neg hne]
      exact ih hnd.2 hmem2

/-- A successful lookup is entry membership. -/
theorem mem_of_lookup (peers : PeerTable) (id : NodeId) (p : Peer)
    (hl : lookupPeer peers id = some p) : (id, p) ∈ peers := by
  induction peers with
  | nil => cases hl
  | cons e rest ih =>
    obtain ⟨pid, q⟩ := e
    rw [lookupPeer_cons] at hl
    by_cases h : pid = id
    · rw [if_pos h] at hl
      injection hl with h2
      refine List.mem_cons.2 (Or.inl ?_)
      rw [h, h2]
    · rw [if_neg h] at hl
      exact List.mem_cons_of_mem _ (ih hl)

/-- C8: on a timeout, with `order` any permutation of the idle-peer scan and
the table's keys unique (it is a hash map in the source): every message sent
goes to a peer that was idle at scan time, and every peer with an outstanding
request is sent nothing and keeps its table entry unchanged. -/
theorem on_timeout_only_idle (st : SyncState) (order : List NodeId)
    (hperm : order.Perm (idle_peer_ids st.peers))
    (hnd : (st.peers.map Prod.fst).Nodup) :
    (∀ id m, (id, m) ∈ (on_timeout st order).2 →
      ∃ p, lookupPeer st.peers id = some p ∧ p.last_request = none) ∧
    (∀ id p r, lookupPeer st.peers id = some p → p.last_request = some r →
      (∀ m, (id, m) ∉ (on_timeout st order).2) ∧
      lookupPeer (on_timeout st order).1.peers id = some p) := by
  constructor
  · intro id m hmem
    rcases timeout_loop_sends (st, []) order (id, m) hmem with h | h
    · simp at h
    · rcases (mem_idle st.peers id).1 (hperm.mem_iff.1 h) with ⟨p, hpm, hno⟩
      exact ⟨p, lookup_eq_of_mem_nodup st.peers id p hnd hpm, Option.isNone_iff_eq_none.1 hno⟩
  · intro id p r hp hr
    have hnotidle : id ∉ idle_peer_ids st.peers := by
      intro hmem
      rcases (mem_idle st.peers id).1 hmem with ⟨p2, hpm2, hno2⟩
      have hp2 := lookup_eq_of_mem_nodup st.peers id p2 hnd hpm2
      rw [hp] at hp2
      injection hp2 with hp2
      rw [hp2] at hr
      rw [Option.isNone_iff_eq_none.1 hno2] at hr
      exact Option.noConfusion hr
    have hnotord : id ∉ order := fun hc => hnotidle (hperm.mem_iff.1 hc)
    constructor
    · intro m hmem
      rcases timeout_loop_sends (st, []) order (id, m) hmem with h | h
      · simp at h
      · exact hnotord h
    · rw [on_timeout, timeout_loop_untouched (st, []) order id hnotord]
      exact hp

/-- Witness for C8: peer 0 is idle, peer 1 awaits headers; the timer run over
the idle scan sends nothing to peer 1 and leaves its entry unchanged. -/
theorem on_timeout_only_idle_witness :
    (∀ m, (1, m) ∉ (on_timeout ⟨[(0, ⟨10, 3, none⟩), (1, ⟨20, 4, some (RequestInfo.Header 9)⟩)], ⟨5, [], []⟩⟩
      (idle_peer_ids [(0, ⟨10, 3, none⟩), (1, ⟨20, 4, some (RequestInfo.Header 9)⟩)])).2) ∧
    lookupPeer (on_timeout ⟨[(0, ⟨10, 3, none⟩), (1, ⟨20, 4, some (RequestInfo.Header 9)⟩)], ⟨5, [], []⟩⟩
      (idle_peer_ids [(0, ⟨10, 3, none⟩), (1, ⟨20, 4, some (RequestInfo.Header 9)⟩)])).1.peers 1 =
      some ⟨20, 4, some (RequestInfo.Header 9)⟩ :=
  (on_timeout_only_idle
    ⟨[(0, ⟨10, 3, none⟩), (1, ⟨20, 4, some (RequestInfo.Header 9)⟩)], ⟨5, [], []⟩⟩
    (idle_peer_ids [(0, ⟨10, 3, none⟩), (1, ⟨20, 4, some (RequestInfo.Header 9)⟩)])
    (List.Perm.refl _) (by decide)).2 1 ⟨20, 4, some (RequestInfo.Header 9)⟩
    (RequestInfo.Header 9) rfl rfl

/-! ## C10: which messages set, clear, or preserve `last_request` -/

/-- C10: `record_last_request` leaves the table untouched for a follow-up of
`Some(Headers ..)`, `Some(Bodies ..)` or `Some(Status ..)`; only
`Some(RequestHeaders ..)` and `Some(RequestBodies ..)` set the peer's
outstanding request and only `None` clears it. -/
theorem record_last_request_spec (peers : PeerTable) (id : NodeId) :
    (∀ headers, record_last_request peers id (some (Message.Headers headers)) = peers) ∧
    (∀ bodies, record_last_request peers id (some (Message.Bodies bodies)) = peers) ∧
    (∀ ts bh gh, record_last_request peers id (some (Message.Status ts bh gh)) = peers) ∧
    (∀ p, lookupPeer peers id = some p →
      (∀ sh mc, lookupPeer (record_last_request peers id (some (Message.RequestHeaders sh mc))) id =
        some { p with last_request := some (RequestInfo.Header sh) }) ∧
      (∀ hashes, lookupPeer (record_last_request peers id (some (Message.RequestBodies hashes))) id =
        some { p with last_request := some (RequestInfo.Bodies hashes) }) ∧
      lookupPeer (record_last_request peers id none) id =
        some { p with last_request := none }) := by
  refine ⟨fun headers => record_eq_of_fix peers id _ (fun p => rfl),
          fun bodies => record_eq_of_fix peers id _ (fun p => rfl),
          fun ts bh gh => record_eq_of_fix peers id _ (fun p => rfl),
          fun p hl => ⟨fun sh mc => lookup_record peers id _ p hl,
                       fun hashes => lookup_record peers id _ p hl,
                       lookup_record peers id _ p hl⟩⟩

/-- Witness for C10: a served `Headers` response leaves the table unchanged,
while a `RequestHeaders` follow-up sets the outstanding request. -/
theorem record_last_request_spec_witness :
    record_last_request peers1 0 (some (Message.Headers [])) = peers1 ∧
    lookupPeer (record_last_request peers1 0 (some (Message.RequestHeaders 9 4))) 0 =
      some ⟨10, 3, some (RequestInfo.Header 9)⟩ :=
  ⟨(record_last_request_spec peers1 0).1 [],
   ((record_last_request_spec peers1 0).2.2.2 ⟨10, 3, none⟩ rfl).1 9 4⟩

/-! ## C9: the `Headers` response built for `RequestHeaders` -/

/-- Consecutive heights: each header's `number` is its predecessor's plus 1. -/
def successiveB : List Header → Bool
| [] => true
| [_] => true
| a :: b :: rest => (b.number == a.number + 1) && successiveB (b :: rest)

theorem headers_from_length (client : Client) (bid : BlockId) (n : Nat) :
    (headers_from client bid n).length ≤ n := by
  induction n generalizing bid with
  | zero => simp [headers_from]
  | succ n ih =>
    rw [headers_from]
    cases h : client.block_header bid with
    | some hd =>
      simp only [List.length_cons]
      exact Nat.succ_le_succ (ih _)
    | none => simp

theorem headers_from_head (client : Client) (bid : BlockId) (n : Nat) (h : Header)
    (rest : List Header) (heq : headers_from client bid n = h :: rest) :
    client.block_header bid = some h := by
  cases n with
  | zero =>
    rw [headers_from] at heq
    cases heq
  | succ n =>
    rw [headers_from] at heq
    cases hb : client.block_header bid with
    | some hd =>
      rw [hb] at heq
      injection heq with h1 h2
      rw [h1]
    | none =>
      rw [hb] at heq
      cases heq

theorem headers_from_successive (client : Client)
    (hcons : ∀ n h, client.block_header (BlockId.Number n) = some h → h.number = n)
    (bid : BlockId) (n : Nat) :
    successiveB (headers_from client bid n) = true := by
  induction n generalizing bid with
  | zero => rfl
  | succ n ih =>
    rw [headers_from]
    cases hb : client.block_header bid with
    | none => rfl
    | some h =>
      show successiveB (h :: headers_from client (BlockId.Number (h.number + 1)) n) = true
      cases hl : headers_from client (BlockId.Number (h.number + 1)) n with
      | nil => rfl
      | cons h2 rest =>
        have h2num : h2.number = h.number + 1 :=
          hcons _ _ (headers_from_head client _ n h2 rest hl)
        have htail : successiveB (h2 :: rest) = true := hl ▸ ih (BlockId.Number (h.number + 1))
        rw [successiveB, h2num, htail]
        simp

theorem headers_from_stops (client : Client) :
    ∀ n bid, (headers_from client bid n).length < n →
    (headers_from client bid n = [] → client.block_header bid = none) ∧
    (∀ l h, headers_from client bid n = l ++ [h] →
      client.block_header (BlockId.Number (h.number + 1)) = none) := by
  intro n
  induction n with
  | zero =>
    intro bid hlt
    exact absurd hlt (Nat.not_lt_zero _)
  | succ n ih =>
    intro bid hlt
    rw [headers_from] at hlt ⊢
    cases hb : client.block_header bid with
    | none =>
      constructor
      · intro _
        rfl
      · intro l h heq
        have heq2 : ([] : List Header) = l ++ [h] := heq
        cases l with
        | nil => exact List.noConfusion heq2
        | cons x xs => exact List.noConfusion heq2
    | some hd =>
      rw [hb] at hlt
      have hlt2 : (headers_from client (BlockId.Number (hd.number + 1)) n).length < n := by
        have hc : (hd :: headers_from client (BlockId.Number (hd.number + 1)) n).length < n + 1 := hlt
        simpa using Nat.lt_of_succ_lt_succ hc
      constructor
      · intro hc
        exact List.noConfusion
          (show hd :: headers_from client (BlockId.Number (hd.number + 1)) n = [] from hc)
      · intro l h heq
        have heq2 : hd :: headers_from client (BlockId.Number (hd.number + 1)) n = l ++ [h] := heq
        cases l with
        | nil =>
          simp only [List.nil_append] at heq2
          injection heq2 with h1 h2
          rw [← h1]
          exact (ih (BlockId.Number (hd.number + 1)) hlt2).1 h2
        | cons x xs =>
          rw [List.cons_append] at heq2
          injection heq2 with h1 h2
          exact (ih (BlockId.Number (hd.number + 1)) hlt2).2 xs h h2

/-- C9: the `Headers` response for `RequestHeaders{start_hash, max_count}`
holds at most `max_count` headers; it starts at the chain-store header for
`start_hash`; heights increase by one at each step (assuming the chain store
returns, at height `n`, a header of height `n`); and it stops at the first
height with no stored header — in particular it is empty when `start_hash`
is unknown. -/
theorem create_headers_message_spec (client : Client) (start_hash : H256) (max_count : Nat)
    (hcons : ∀ n h, client.block_header (BlockId.Number n) = some h → h.number = n) :
    ∃ hs, create_headers_message client start_hash max_count = Message.Headers hs ∧
      hs.length ≤ max_count ∧
      (∀ h rest, hs = h :: rest → client.block_header (BlockId.Hash start_hash) = some h) ∧
      successiveB hs = true ∧
      (hs.length < max_count →
        (hs = [] → client.block_header (BlockId.Hash start_hash) = none) ∧
        (∀ l h, hs = l ++ [h] → client.block_header (BlockId.Number (h.number + 1)) = none)) :=
  ⟨headers_from client (BlockId.Hash start_hash) max_count, rfl,
    headers_from_length client _ max_count,
    fun h rest heq => headers_from_head client _ max_count h rest heq,
    headers_from_successive client hcons _ max_count,
    fun hlt => headers_from_stops client max_count _ hlt⟩

/-- A chain store holding exactly a block 100 at height 0 (hash 100) and its
child at height 1 (hash 101). -/
def clientC9 : Client where
  chain_info := ⟨0, 0, 0⟩
  block_header := fun bid =>
    match bid with
    | BlockId.Hash h => if h = 100 then some ⟨100, 0, 99⟩ else none
    | BlockId.Number n => if n = 1 then some ⟨101, 1, 100⟩ else none
  block_body := fun _ => none
  block_total_score := fun _ => none
  accept_block := fun _ _ => true

/-- Witness for C9: walking 5 headers forward from hash 100 yields the two
stored headers and stops. -/
theorem create_headers_message_spec_witness :
    ∃ hs, create_headers_message clientC9 100 5 = Message.Headers hs ∧
      hs.length ≤ 5 ∧
      (∀ h rest, hs = h :: rest → clientC9.block_header (BlockId.Hash 100) = some h) ∧
      successiveB hs = true ∧
      (hs.length < 5 →
        (hs = [] → clientC9.block_header (BlockId.Hash 100) = none) ∧
        (∀ l h, hs = l ++ [h] → clientC9.block_header (BlockId.Number (h.number + 1)) = none)) :=
  create_headers_message_spec clientC9 100 5 (by
    intro n h heq
    by_cases hn : n = 1
    · subst hn
      simp only [clientC9, if_pos rfl] at heq
      injection heq with heq
      rw [← heq]
    · simp [clientC9, hn] at heq)

/-! ## C2: completing a header + body pair (spec-modelled download manager) -/

/-- C2: when a `Bodies` message positionally matches the oldest outstanding
body request and the matching pending header for that hash exists, the
assembled block is handed to the chain store (`accept_block`), and on
acceptance the manager's frontier `best_hash` advances to that block's hash
while the header is evicted from the pending queue. -/
theorem import_bodies_completes_block (client : Client) (dm : DownloadManager)
    (hd : Header) (b : Body) (rest : List (List H256))
    (hreq : dm.requests = [hd.hash] :: rest)
    (hfind : dm.pending.find? (fun x => x.hash == hd.hash) = some hd)
    (hacc : client.accept_block hd b = true) :
    (DownloadManager.import_bodies client dm [b]).best_hash = hd.hash ∧
    ∀ x ∈ (DownloadManager.import_bodies client dm [b]).pending, x.hash ≠ hd.hash := by
  have key : (DownloadManager.accept_pair client { dm with requests := rest } hd.hash b).best_hash = hd.hash ∧
      ∀ x ∈ (DownloadManager.accept_pair client { dm with requests := rest } hd.hash b).pending,
        x.hash ≠ hd.hash := by
    unfold DownloadManager.accept_pair
    simp only [hfind]
    rw [if_pos hacc]
    refine ⟨rfl, fun x hx => ?_⟩
    rcases List.mem_filter.1 hx with ⟨_, hne⟩
    simpa using hne
  unfold DownloadManager.import_bodies
  rw [hreq]
  exact key

/-- Witness for C2: the single outstanding request for hash 11 is completed
by one body; the frontier advances to 11 and the header leaves the queue. -/
theorem import_bodies_completes_block_witness :
    (DownloadManager.import_bodies client0 ⟨5, [⟨11, 1, 5⟩], [[11]]⟩ [[42]]).best_hash = 11 ∧
    ∀ x ∈ (DownloadManager.import_bodies client0 ⟨5, [⟨11, 1, 5⟩], [[11]]⟩ [[42]]).pending,
      x.hash ≠ 11 :=
  import_bodies_completes_block client0 ⟨5, [⟨11, 1, 5⟩], [[11]]⟩ ⟨11, 1, 5⟩ [42] []
    rfl rfl rfl

end BlockSync
